import Mathlib

/-!
Shallow embedding of the `hashing-demo` hashing framework.

Conventions used throughout:
* A machine byte (`unsigned char`) is a `Nat` below 256; where the C++ code
  truncates to a byte we write `% 256` explicitly.
* `size_t`/`uint64_t` values are `Nat`s, with `% 2^64` applied wherever the
  C++ arithmetic can overflow.
* Memory of a value of a uniquely-represented fixed-width type is its
  little-endian byte list (the representation on the x86-64 target the
  sources assume).
* A hash-code handle is its state, threaded by value through the mixing
  functions, exactly as the C++ threads handles by move.
-/

namespace HashingDemo

/-- The value `2^64`, the modulus of `size_t`/`uint64_t` arithmetic on the target platform. -/
def M64 : Nat := 2 ^ 64

/-- Little-endian byte representation of width `w` (the object representation of
a `w`-byte unsigned integer; also of a signed one, given its two's-complement
value). -/
def leBytes : Nat → Nat → List Nat
  | 0, _ => []
  | w + 1, v => v % 256 :: leBytes w (v / 256)

theorem leBytes_length (w v : Nat) : (leBytes w v).length = w := by
  induction w generalizing v with
  | zero => rfl
  | succ w ih => simp [leBytes, ih]

namespace fnv1a

/-- The FNV-1a offset basis: the initial value of `state_` (`fnv1a.h`). -/
def seed : Nat := 14695981039346656037

/-- The FNV-1a multiplier used in `fnv1a::mix`. -/
def prime : Nat := 1099511628211

/-- Source `fnv1a::mix`: `(hash_code.state_ ^ c) * 1099511628211`, in `size_t`. -/
def mix (state c : Nat) : Nat := ((state ^^^ c) * prime) % M64

/-- The `unsigned char*` overload of `hash_combine_range` for `fnv1a`:
the while loop mixing one byte at a time (`fnv1a.h`). -/
def hash_combine_range (hash_code : Nat) : List Nat → Nat
  | [] => hash_code
  | c :: rest => hash_combine_range (mix hash_code c) rest

/-- Source `fnv1a::operator result_type`: extraction returns `state_` unchanged. -/
def finalize (hash_code : Nat) : Nat := hash_code

/-- Hash of a raw byte sequence: a fresh handle, all bytes mixed, extracted. -/
def digest (input : List Nat) : Nat := finalize (hash_combine_range seed input)

theorem hash_combine_range_eq_foldl (hash_code : Nat) (input : List Nat) :
    hash_combine_range hash_code input = input.foldl mix hash_code := by
  induction input generalizing hash_code with
  | nil => rfl
  | cons c rest ih => simp [hash_combine_range, List.foldl, ih]

theorem hash_combine_range_append (hash_code : Nat) (xs ys : List Nat) :
    hash_combine_range hash_code (xs ++ ys) =
      hash_combine_range (hash_combine_range hash_code xs) ys := by
  induction xs generalizing hash_code with
  | nil => rfl
  | cons c rest ih => simp [hash_combine_range, ih]

end fnv1a

namespace type_invariant_fnv1a

/-- Initial value of `state_` of `type_invariant_fnv1a` (`fnv1a.h`). -/
def seed : Nat := 14695981039346656037

/-- Source `type_invariant_fnv1a::mix`: `(state_ ^ c) * 1099511628211` in `size_t`. -/
def mix (state c : Nat) : Nat := ((state ^^^ c) * 1099511628211) % M64

/-- The `unsigned char const*` overload of `hash_combine_range` for
`type_invariant_fnv1a`: the byte-at-a-time while loop. -/
def hash_combine_range (hash_code : Nat) : List Nat → Nat
  | [] => hash_code
  | c :: rest => hash_combine_range (mix hash_code c) rest

/-- Source `hash_value(code, const string&)` under `type_invariant_fnv1a`:
`hash_sized_container` mixes every character (each one byte, reached through
`hash_bytes` and the `unsigned char const*` range overload) in order, then the
length as `size_t`. There is no byte-level shortcut in this algorithm: its
only range overloads are the iterative one and the `unsigned char const*` one. -/
def hash_string (hash_code : Nat) (s : List Nat) : Nat :=
  hash_combine_range
    (s.foldl (fun code ch => hash_combine_range code (leBytes 1 ch)) hash_code)
    (leBytes 8 s.length)

end type_invariant_fnv1a

/-- The interned-string wrapper of `type-invariant_test.cc`: its in-memory
representation is one pointer (`str_`) into the intern pool; `value` is the
string that pointer refers to. -/
structure InternedString where
  ptr : Nat
  value : List Nat

namespace type_invariant_fnv1a

/-- The `type_invariant_fnv1a`-specific `hash_value` overload for
`InternedString` (`type-invariant_test.cc`): hash the full referenced string
`*i.str_`, not the pointer. -/
def hash_interned (hash_code : Nat) (i : InternedString) : Nat :=
  hash_string hash_code i.value

/-- Source `hash_value(code, const vector<InternedString>&)` under
`type_invariant_fnv1a`: `hash_sized_container` iterates the elements through
the generic range overload (each decomposed by `hash_interned`), then mixes
the element count as `size_t`. -/
def hash_vector_interned (hash_code : Nat) (v : List InternedString) : Nat :=
  hash_combine_range (v.foldl hash_interned hash_code) (leBytes 8 v.length)

/-- Source `hash_value(code, const vector<string>&)` under `type_invariant_fnv1a`. -/
def hash_vector_string (hash_code : Nat) (v : List (List Nat)) : Nat :=
  hash_combine_range (v.foldl hash_string hash_code) (leBytes 8 v.length)

end type_invariant_fnv1a

namespace identity

/-- The `unsigned char*` overload of `hash_combine_range` for the diagnostic
recorder `identity` (`debug.h`): append the whole range to `hash_input_`. -/
def hash_combine_range_bytes (hash_code bytes : List Nat) : List Nat :=
  hash_code ++ bytes

/-- The `unsigned char` overload of `hash_combine` for `identity`:
`hash_input_.push_back(c)`. -/
def hash_combine_byte (hash_code : List Nat) (c : Nat) : List Nat :=
  hash_code ++ [c % 256]

/-- Source `hash_value(code, char)` via `detail::hash_bytes`: mix the one byte of the
character's object representation through the `unsigned char*` overload. -/
def hash_value_char (hash_code : List Nat) (c : Nat) : List Nat :=
  hash_combine_range_bytes hash_code (leBytes 1 c)

/-- The generic `InputIterator` overload of `hash_combine_range` for
`identity`, applied to a string: the while loop calls `hash_value` on each
character in order. -/
def hash_combine_range_string (hash_code : List Nat) (s : List Nat) : List Nat :=
  s.foldl hash_value_char hash_code

/-- Source `hash_value(code, size_t)` via `detail::hash_bytes`: mix the 8 bytes of
the count's object representation. -/
def hash_value_size (hash_code : List Nat) (n : Nat) : List Nat :=
  hash_combine_range_bytes hash_code (leBytes 8 n)

/-- Source `hash_value(code, const string&)` for `identity`:
`detail::hash_sized_container` (`std_impl.h`) mixes every character in order,
then mixes `static_cast<size_t>(container.size())`. -/
def hash_value_string (hash_code : List Nat) (s : List Nat) : List Nat :=
  hash_value_size (hash_combine_range_string hash_code s) s.length

/-- Source `identity::operator result_type`: return the recorded buffer verbatim. -/
def finalize (hash_code : List Nat) : List Nat := hash_code

end identity

/-- Source `detail::hash_sized_container` (`std_impl.h`), generic in the algorithm:
mix all elements of the container through `hash_combine_range`, then mix the
element count, forced to `size_t`. -/
def hash_sized_container (combineRange : σ → List α → σ) (combineSize : σ → Nat → σ)
    (hash_code : σ) (container : List α) : σ :=
  combineSize (combineRange hash_code container) container.length

/-- Source `hash_value(code, const forward_list<T>&)` (`std_impl.h`): traverse once,
mixing each element and counting, then mix the count as `size_t`. -/
def hash_value_forward_list (combineElem : σ → α → σ) (combineSize : σ → Nat → σ)
    (hash_code : σ) (l : List α) : σ :=
  let final := l.foldl (fun (p : σ × Nat) t => (combineElem p.1 t, p.2 + 1)) (hash_code, 0)
  combineSize final.1 final.2

/-- The generic iterative overload of `hash_combine_range` applied to a range
of a uniquely-represented type: each element is decomposed, which bottoms out
in mixing the element's own object representation `enc v` through the
algorithm's `unsigned char*` range primitive (`fnv1a.h` generic overload;
`std_impl.h` `hash_range_or_bytes`, `false_type` case). -/
def hashRangeIter (mixRange : σ → List Nat → σ) (enc : α → List Nat)
    (hash_code : σ) (vals : List α) : σ :=
  vals.foldl (fun code v => mixRange code (enc v)) hash_code

/-- The byte-level shortcut overload of `hash_combine_range` for a contiguous
range of a uniquely-represented type: reinterpret the elements' memory as one
raw `unsigned char` range — the concatenation of the elements' object
representations — and mix it in one call (`fnv1a.h` contiguous overload;
`std_impl.h` `hash_range_or_bytes`, `true_type` case). -/
def hashRangeBytes (mixRange : σ → List Nat → σ) (enc : α → List Nat)
    (hash_code : σ) (vals : List α) : σ :=
  mixRange hash_code (vals.map enc).flatten

/-- The variadic `hash_combine_impl` recursion (`fnv1a.h`), specialized to
uniquely-represented arguments: mix the first value's bytes, recurse on the
rest; the base case returns the handle unchanged. -/
def hash_combine_impl (mixRange : σ → List Nat → σ) (enc : α → List Nat)
    (hash_code : σ) : List α → σ
  | [] => hash_code
  | v :: vs => hash_combine_impl mixRange enc (mixRange hash_code (enc v)) vs

/-- One `hash_combine(code, v)` call on a single uniquely-represented value:
mix that value's object representation. The test loops apply this once per
value. -/
def hash_combine_one (mixRange : σ → List Nat → σ) (enc : α → List Nat)
    (hash_code : σ) (v : α) : σ :=
  mixRange hash_code (enc v)

/-- Bit pattern of `+0.0` for a `w`-byte IEEE floating-point type. -/
def posZeroBits (_w : Nat) : Nat := 0

/-- Bit pattern of `-0.0` for a `w`-byte IEEE floating-point type: only the
sign bit set. -/
def negZeroBits (w : Nat) : Nat := 2 ^ (8 * w - 1)

/-- The normalization performed by `hash_value` for floating point
(`std_impl.h`): `value == 0 ? 0 : value`. For an IEEE floating-point value,
`value == 0` holds exactly when the bit pattern is `+0.0` or `-0.0`, and the
literal `0` converts to `+0.0`. -/
def floatNormalize (w bits : Nat) : Nat :=
  if bits = posZeroBits w ∨ bits = negZeroBits w then posZeroBits w else bits

/-- Source `hash_value(code, Float)` (`std_impl.h`): normalize, then mix the bytes of
the normalized value's object representation through the algorithm's
`unsigned char*` range primitive. -/
def hash_value_float (mixRange : σ → List Nat → σ) (hash_code : σ)
    (w bits : Nat) : σ :=
  mixRange hash_code (leBytes w (floatNormalize w bits))

namespace farmhash

def k0 : Nat := 0xc3a5c85c97cb3127
def k1 : Nat := 0xb492b66fbe98f273
def k2 : Nat := 0x9ae16a3b2f90404f
def kSeed : Nat := 81

/-- One byte of a byte list. Every read below is at an index the code has
previously written, so the default is never observed. -/
def byteAt (s : List Nat) (i : Nat) : Nat := s.getD i 0

/-- Source `Fetch64`: unaligned little-endian `uint64_t` load at byte offset `i`. -/
def fetch64 (s : List Nat) (i : Nat) : Nat :=
  byteAt s i + 2 ^ 8 * byteAt s (i + 1) + 2 ^ 16 * byteAt s (i + 2) +
    2 ^ 24 * byteAt s (i + 3) + 2 ^ 32 * byteAt s (i + 4) +
    2 ^ 40 * byteAt s (i + 5) + 2 ^ 48 * byteAt s (i + 6) +
    2 ^ 56 * byteAt s (i + 7)

/-- Source `Fetch32`: unaligned little-endian `uint32_t` load at byte offset `i`. -/
def fetch32 (s : List Nat) (i : Nat) : Nat :=
  byteAt s i + 2 ^ 8 * byteAt s (i + 1) + 2 ^ 16 * byteAt s (i + 2) +
    2 ^ 24 * byteAt s (i + 3)

/-- Source `buffer_[i]`: the buffer viewed as an array of `uint64_t` words. -/
def word (buf : List Nat) (i : Nat) : Nat := fetch64 buf (8 * i)

/-- Source `ShiftMix(val) = val ^ (val >> 47)`. -/
def shiftMix (v : Nat) : Nat := v ^^^ (v >>> 47)

/-- Source `Rotate`: right rotation of a `uint64_t`, guarding the zero shift. -/
def rot (v s : Nat) : Nat :=
  if s = 0 then v else (v >>> s) ||| ((v <<< (64 - s)) % M64)

/-- Source `HashLen16(u, v, mul)`: the Murmur-inspired two-word mix. -/
def hashLen16 (u v mul : Nat) : Nat :=
  let a := (u ^^^ v) * mul % M64
  let a1 := a ^^^ (a >>> 47)
  let b := (v ^^^ a1) * mul % M64
  let b1 := b ^^^ (b >>> 47)
  b1 * mul % M64

/-- Source `HashLen0to16`: closed-form hash of the first `len` (0 to 16) bytes. -/
def hashLen0to16 (s : List Nat) (len : Nat) : Nat :=
  if 8 ≤ len then
    let mul := (k2 + len * 2) % M64
    let a := (fetch64 s 0 + k2) % M64
    let b := fetch64 s (len - 8)
    let c := (rot b 37 * mul + a) % M64
    let d := (rot a 25 + b) % M64 * mul % M64
    hashLen16 c d mul
  else if 4 ≤ len then
    let mul := (k2 + len * 2) % M64
    let a := fetch32 s 0
    hashLen16 ((len + (a <<< 3)) % M64) (fetch32 s (len - 4)) mul
  else if 0 < len then
    let a := byteAt s 0
    let b := byteAt s (len >>> 1)
    let c := byteAt s (len - 1)
    let y := (a + (b <<< 8)) % 2 ^ 32
    let z := (len + (c <<< 2)) % 2 ^ 32
    shiftMix ((y * k2 % M64) ^^^ (z * k0 % M64)) * k2 % M64
  else k2

/-- Source `HashLen17to32`: closed-form hash of the first `len` (17 to 32) bytes. -/
def hashLen17to32 (s : List Nat) (len : Nat) : Nat :=
  let mul := (k2 + len * 2) % M64
  let a := fetch64 s 0 * k1 % M64
  let b := fetch64 s 8
  let c := fetch64 s (len - 8) * mul % M64
  let d := fetch64 s (len - 16) * k2 % M64
  hashLen16 ((rot ((a + b) % M64) 43 + rot c 30 + d) % M64)
    ((a + rot ((b + k2) % M64) 18 + c) % M64) mul

/-- Source `HashLen33to64`: closed-form hash of the first `len` (33 to 64) bytes. -/
def hashLen33to64 (s : List Nat) (len : Nat) : Nat :=
  let mul := (k2 + len * 2) % M64
  let a := fetch64 s 0 * k2 % M64
  let b := fetch64 s 8
  let c := fetch64 s (len - 8) * mul % M64
  let d := fetch64 s (len - 16) * k2 % M64
  let y := (rot ((a + b) % M64) 43 + rot c 30 + d) % M64
  let z := hashLen16 y ((a + rot ((b + k2) % M64) 18 + c) % M64) mul
  let e := fetch64 s 16 * mul % M64
  let f := fetch64 s 24
  let g := (y + fetch64 s (len - 32)) % M64 * mul % M64
  let h := (z + fetch64 s (len - 24)) % M64 * mul % M64
  hashLen16 ((rot ((e + f) % M64) 43 + rot g 30 + h) % M64)
    ((e + rot ((f + a) % M64) 18 + g) % M64) mul

/-- The 56-byte register state of `farmhash::state`. -/
structure Regs where
  x : Nat
  y : Nat
  z : Nat
  v : Nat × Nat
  w : Nat × Nat
deriving DecidableEq

/-- Source `WeakHashLen32WithSeeds` on four consecutive buffer words. -/
def weakHashLen32WithSeeds (w0 w1 w2 w3 a b : Nat) : Nat × Nat :=
  let a1 := (a + w0) % M64
  let b1 := rot ((b + a1 + w3) % M64) 21
  let c := a1
  let a2 := (a1 + w1 + w2) % M64
  let b2 := (b1 + rot a2 44) % M64
  ((a2 + w3) % M64, (b2 + c) % M64)

/-- Source `state::initialize()`: seed the registers; reads `buffer_[0]`, so it is
called only once the buffer has been fully populated. -/
def initializeRegs (buf : List Nat) : Regs :=
  let y0 := (kSeed * k1 + 113) % M64
  let z0 := shiftMix ((y0 * k2 + 113) % M64) * k2 % M64
  { x := (kSeed * k2 + word buf 0) % M64, y := y0, z := z0,
    v := (0, 0), w := (0, 0) }

/-- Source `state::mix()`: fold the 64-byte buffer into the registers
(`std::swap(z_, x_)` at the end exchanges the two). -/
def mixRegs (r : Regs) (buf : List Nat) : Regs :=
  let x1 := rot ((r.x + r.y + r.v.1 + word buf 1) % M64) 37 * k1 % M64
  let y1 := rot ((r.y + r.v.2 + word buf 6) % M64) 42 * k1 % M64
  let x2 := x1 ^^^ r.w.2
  let y2 := (y1 + r.v.1 + word buf 5) % M64
  let z1 := rot ((r.z + r.w.1) % M64) 33 * k1 % M64
  let v1 := weakHashLen32WithSeeds (word buf 0) (word buf 1) (word buf 2)
    (word buf 3) (r.v.2 * k1 % M64) ((x2 + r.w.1) % M64)
  let w1 := weakHashLen32WithSeeds (word buf 4) (word buf 5) (word buf 6)
    (word buf 7) ((z1 + r.w.2) % M64) ((y2 + word buf 2) % M64)
  { x := z1, y := y2, z := x2, v := v1, w := w1 }

/-- Source `std::rotate(b, b + len, b + 64)`: left-rotate the buffer by `len`. -/
def rotateBuffer (buf : List Nat) (len : Nat) : List Nat :=
  buf.drop len ++ buf.take len

/-- Source `state::final_mix(len)`: rotate the circular buffer into logical order,
then run one last distinguished round and collapse to the digest. The C++
updates `w_.first` by `(len - 1) & 63` in `size_t` arithmetic; for every
`len` (0 wrapping included) that value equals `(len + 63) % 64`. -/
def final_mix (r : Regs) (buf0 : List Nat) (len : Nat) : Nat :=
  let buf := rotateBuffer buf0 len
  let mul := (k1 + ((r.z &&& 0xff) <<< 1)) % M64
  let wf1 := (r.w.1 + ((len + 63) % 64)) % M64
  let vf1 := (r.v.1 + wf1) % M64
  let wf2 := (wf1 + vf1) % M64
  let x1 := rot ((r.x + r.y + vf1 + word buf 1) % M64) 37 * mul % M64
  let y1 := rot ((r.y + r.v.2 + word buf 6) % M64) 42 * mul % M64
  let x2 := x1 ^^^ (r.w.2 * 9 % M64)
  let y2 := (y1 + vf1 * 9 + word buf 5) % M64
  let z1 := rot ((r.z + wf2) % M64) 33 * mul % M64
  let v1 := weakHashLen32WithSeeds (word buf 0) (word buf 1) (word buf 2)
    (word buf 3) (r.v.2 * mul % M64) ((x2 + wf2) % M64)
  let w1 := weakHashLen32WithSeeds (word buf 4) (word buf 5) (word buf 6)
    (word buf 7) ((z1 + r.w.2) % M64) ((y2 + word buf 2) % M64)
  hashLen16 ((hashLen16 v1.1 w1.1 mul + shiftMix y2 * k0 + x2) % M64)
    ((hashLen16 v1.2 w1.2 mul + z1) % M64) mul

/-- The `farmhash::proxy` handle together with the `state` it points to:
the 64-byte circular input buffer, the cursor `buffer_next_` (as an offset),
the `mixed_` flag, and the mixing registers. -/
structure Proxy where
  buffer : List Nat
  next : Nat
  mixed : Bool
  regs : Regs
deriving DecidableEq

/-- The registers before `initialize()`. The C++ leaves them uninitialized;
they are never read before `initialize()` overwrites them, so any fixed
value is observationally equivalent. -/
def initialRegs : Regs := { x := 0, y := 0, z := 0, v := (0, 0), w := (0, 0) }

/-- A freshly constructed proxy over a default-constructed `state`:
`buffer_next_` at offset 0, nothing mixed. The C++ buffer bytes are
uninitialized; they are never read before being written, so zeros stand in. -/
def fresh : Proxy :=
  { buffer := List.replicate 64 0, next := 0, mixed := false, regs := initialRegs }

/-- Source `memcpy(buf + off, bs, bs.length)`. -/
def writeBytes (buf : List Nat) (off : Nat) (bs : List Nat) : List Nat :=
  buf.take off ++ bs ++ buf.drop (off + bs.length)

/-- The `while (end - begin > 64)` loop of `hash_combine_range`: while more
than 64 input bytes remain, copy the next 64 into the buffer and mix. Returns
the registers, the buffer, and the remaining (at most 64, at least 1) bytes. -/
def mixChunks (r : Regs) (buf bs : List Nat) : Regs × List Nat × List Nat :=
  if _h : 64 < bs.length then
    mixChunks (mixRegs r (bs.take 64)) (bs.take 64) (bs.drop 64)
  else (r, buf, bs)
termination_by bs.length
decreasing_by simp only [List.length_drop]; omega

/-- The `unsigned char*` overload of `hash_combine_range` for the farmhash
proxy: either the input fits in the remaining buffer space and is copied, or
the buffer is saturated, initialized (first time only), and mixed chunk by
chunk, leaving a nonempty tail of at most 64 bytes buffered. -/
def feed (p : Proxy) (bs : List Nat) : Proxy :=
  let rem := 64 - p.next
  if bs.length ≤ rem then
    { p with buffer := writeBytes p.buffer p.next bs, next := p.next + bs.length }
  else
    let buf1 := writeBytes p.buffer p.next (bs.take rem)
    let regs0 := if p.mixed then p.regs else initializeRegs buf1
    let regs1 := mixRegs regs0 buf1
    let t := mixChunks regs1 buf1 (bs.drop rem)
    { buffer := writeBytes t.2.1 0 t.2.2, next := t.2.2.length,
      mixed := true, regs := t.1 }

/-- Source `farmhash::proxy::operator result_type`: dispatch on `mixed_` and, below
65 total bytes, on the length bucket; otherwise run `final_mix` on the
buffered tail. -/
def finalizeProxy (p : Proxy) : Nat :=
  let len := p.next
  if p.mixed = false then
    if len ≤ 32 then
      if len ≤ 16 then hashLen0to16 p.buffer len
      else hashLen17to32 p.buffer len
    else hashLen33to64 p.buffer len
  else final_mix p.regs p.buffer len

/-- A sequence of `hash_combine_range` calls against one handle. -/
def feedCalls (p : Proxy) (calls : List (List Nat)) : Proxy :=
  calls.foldl feed p

/-- The states reachable by the proxy: the cursor stays inside the buffer,
the buffer keeps its 64 bytes, and once a block has been mixed the buffer is
never empty of unmixed input. -/
def Inv (p : Proxy) : Prop :=
  p.buffer.length = 64 ∧ p.next ≤ 64 ∧ (p.mixed = true → 1 ≤ p.next)

theorem writeBytes_length (buf : List Nat) (off : Nat) (bs : List Nat)
    (h : off + bs.length ≤ buf.length) :
    (writeBytes buf off bs).length = buf.length := by
  simp [writeBytes]; omega

theorem writeBytes_nil (buf : List Nat) (off : Nat) :
    writeBytes buf off [] = buf := by
  simp [writeBytes]

theorem writeBytes_zero (buf bs : List Nat) :
    writeBytes buf 0 bs = bs ++ buf.drop bs.length := by
  simp [writeBytes]

theorem writeBytes_full (buf bs : List Nat) (hbuf : buf.length = 64)
    (hbs : bs.length = 64) : writeBytes buf 0 bs = bs := by
  rw [writeBytes_zero, hbs, ← hbuf, List.drop_length, List.append_nil]

theorem writeBytes_append (buf : List Nat) (off : Nat) (xs ys : List Nat)
    (h : off + xs.length ≤ buf.length) :
    writeBytes (writeBytes buf off xs) (off + xs.length) ys =
      writeBytes buf off (xs ++ ys) := by
  have hA : (List.take off buf ++ xs).length = off + xs.length := by
    simp; omega
  unfold writeBytes
  rw [← List.append_assoc, List.take_left' hA, List.drop_append_eq_append_drop,
    List.drop_eq_nil_of_le (by rw [hA]; omega), hA, List.nil_append,
    List.drop_drop]
  simp only [List.append_assoc, List.length_append]
  have harith : off + xs.length + (off + xs.length + ys.length - (off + xs.length)) =
      off + (xs.length + ys.length) := by omega
  rw [harith]

theorem mixChunks_le (r : Regs) (buf bs : List Nat) (h : bs.length ≤ 64) :
    mixChunks r buf bs = (r, buf, bs) := by
  unfold mixChunks
  rw [dif_neg (by omega)]

theorem mixChunks_gt (r : Regs) (buf bs : List Nat) (h : 64 < bs.length) :
    mixChunks r buf bs =
      mixChunks (mixRegs r (bs.take 64)) (bs.take 64) (bs.drop 64) := by
  rw [mixChunks.eq_def]
  rw [dif_pos h]

theorem mixChunks_append_aux (n : Nat) :
    ∀ (r : Regs) (buf s ys : List Nat), s.length ≤ n →
      mixChunks r buf (s ++ ys) =
        mixChunks (mixChunks r buf s).1 (mixChunks r buf s).2.1
          ((mixChunks r buf s).2.2 ++ ys) := by
  induction n with
  | zero =>
    intro r buf s ys hs
    have hnil : s = [] := List.eq_nil_of_length_eq_zero (by omega)
    subst hnil
    rw [mixChunks_le r buf [] (by simp)]
  | succ n ih =>
    intro r buf s ys hs
    by_cases h64 : 64 < s.length
    · have h64' : 64 < (s ++ ys).length := by simp; omega
      rw [mixChunks_gt r buf s h64, mixChunks_gt r buf (s ++ ys) h64']
      have htake : (s ++ ys).take 64 = s.take 64 := by
        rw [List.take_append_eq_append_take, Nat.sub_eq_zero_of_le (by omega),
          List.take_zero, List.append_nil]
      have hdrop : (s ++ ys).drop 64 = s.drop 64 ++ ys := by
        rw [List.drop_append_eq_append_drop, Nat.sub_eq_zero_of_le (by omega),
          List.drop_zero]
      rw [htake, hdrop]
      exact ih _ _ _ _ (by simp; omega)
    · rw [mixChunks_le r buf s (by omega)]

theorem mixChunks_append (r : Regs) (buf s ys : List Nat) :
    mixChunks r buf (s ++ ys) =
      mixChunks (mixChunks r buf s).1 (mixChunks r buf s).2.1
        ((mixChunks r buf s).2.2 ++ ys) :=
  mixChunks_append_aux s.length r buf s ys le_rfl

theorem mixChunks_props_aux (n : Nat) :
    ∀ (r : Regs) (buf bs : List Nat), bs.length ≤ n →
      (mixChunks r buf bs).2.2.length ≤ 64 ∧
      (1 ≤ bs.length → 1 ≤ (mixChunks r buf bs).2.2.length) ∧
      (buf.length = 64 → (mixChunks r buf bs).2.1.length = 64) ∧
      (buf.length = 64 →
        (mixChunks r buf bs).2.1.drop (mixChunks r buf bs).2.2.length ++
            (mixChunks r buf bs).2.2 =
          (buf ++ bs).drop (buf.length + bs.length - 64)) := by
  have small : ∀ (r : Regs) (buf bs : List Nat), bs.length ≤ 64 →
      (mixChunks r buf bs).2.2.length ≤ 64 ∧
      (1 ≤ bs.length → 1 ≤ (mixChunks r buf bs).2.2.length) ∧
      (buf.length = 64 → (mixChunks r buf bs).2.1.length = 64) ∧
      (buf.length = 64 →
        (mixChunks r buf bs).2.1.drop (mixChunks r buf bs).2.2.length ++
            (mixChunks r buf bs).2.2 =
          (buf ++ bs).drop (buf.length + bs.length - 64)) := by
    intro r buf bs hle
    rw [mixChunks_le r buf bs hle]
    refine ⟨hle, fun h => h, fun h => h, fun hbuf => ?_⟩
    show List.drop bs.length buf ++ bs =
      List.drop (buf.length + bs.length - 64) (buf ++ bs)
    have h1 : buf.length + bs.length - 64 = bs.length := by omega
    have h2 : bs.length - buf.length = 0 := by omega
    rw [h1, List.drop_append_eq_append_drop, h2, List.drop_zero]
  induction n with
  | zero =>
    intro r buf bs hs
    exact small r buf bs (by omega)
  | succ n ih =>
    intro r buf bs hs
    by_cases h64 : 64 < bs.length
    · rw [mixChunks_gt r buf bs h64]
      obtain ⟨h1, h2, h3, h4⟩ :=
        ih (mixRegs r (bs.take 64)) (bs.take 64) (bs.drop 64) (by simp; omega)
      have htlen : (bs.take 64).length = 64 := by
        simp [List.length_take]; omega
      refine ⟨h1, fun _ => h2 (by simp; omega), fun _ => h3 htlen, fun hbuf => ?_⟩
      rw [h4 htlen, htlen, List.length_drop, List.take_append_drop]
      have hro : buf.length + bs.length - 64 = buf.length + (bs.length - 64) := by
        omega
      rw [hro, ← List.drop_drop, List.drop_left]
      have hidx : 64 + (bs.length - 64) - 64 = bs.length - 64 := by omega
      rw [hidx]
    · exact small r buf bs (by omega)

theorem mixChunks_tail_le (r : Regs) (buf bs : List Nat) :
    (mixChunks r buf bs).2.2.length ≤ 64 :=
  (mixChunks_props_aux bs.length r buf bs le_rfl).1

theorem mixChunks_tail_pos (r : Regs) (buf bs : List Nat) (h : 1 ≤ bs.length) :
    1 ≤ (mixChunks r buf bs).2.2.length :=
  (mixChunks_props_aux bs.length r buf bs le_rfl).2.1 h

theorem mixChunks_buf_length (r : Regs) (buf bs : List Nat)
    (h : buf.length = 64) : (mixChunks r buf bs).2.1.length = 64 :=
  (mixChunks_props_aux bs.length r buf bs le_rfl).2.2.1 h

theorem mixChunks_suffix (r : Regs) (buf bs : List Nat) (h : buf.length = 64) :
    (mixChunks r buf bs).2.1.drop (mixChunks r buf bs).2.2.length ++
        (mixChunks r buf bs).2.2 =
      (buf ++ bs).drop (buf.length + bs.length - 64) :=
  (mixChunks_props_aux bs.length r buf bs le_rfl).2.2.2 h

theorem feed_copy (p : Proxy) (bs : List Nat) (h : bs.length ≤ 64 - p.next) :
    feed p bs =
      { p with buffer := writeBytes p.buffer p.next bs,
               next := p.next + bs.length } := by
  simp only [feed]
  rw [if_pos h]

theorem feed_sat (p : Proxy) (bs : List Nat) (h : ¬ bs.length ≤ 64 - p.next) :
    feed p bs =
      { buffer :=
          writeBytes
            (mixChunks
              (mixRegs
                (if p.mixed then p.regs
                 else initializeRegs
                   (writeBytes p.buffer p.next (bs.take (64 - p.next))))
                (writeBytes p.buffer p.next (bs.take (64 - p.next))))
              (writeBytes p.buffer p.next (bs.take (64 - p.next)))
              (bs.drop (64 - p.next))).2.1 0
            (mixChunks
              (mixRegs
                (if p.mixed then p.regs
                 else initializeRegs
                   (writeBytes p.buffer p.next (bs.take (64 - p.next))))
                (writeBytes p.buffer p.next (bs.take (64 - p.next))))
              (writeBytes p.buffer p.next (bs.take (64 - p.next)))
              (bs.drop (64 - p.next))).2.2,
        next :=
          (mixChunks
            (mixRegs
              (if p.mixed then p.regs
               else initializeRegs
                 (writeBytes p.buffer p.next (bs.take (64 - p.next))))
              (writeBytes p.buffer p.next (bs.take (64 - p.next))))
            (writeBytes p.buffer p.next (bs.take (64 - p.next)))
            (bs.drop (64 - p.next))).2.2.length,
        mixed := true,
        regs :=
          (mixChunks
            (mixRegs
              (if p.mixed then p.regs
               else initializeRegs
                 (writeBytes p.buffer p.next (bs.take (64 - p.next))))
              (writeBytes p.buffer p.next (bs.take (64 - p.next))))
            (writeBytes p.buffer p.next (bs.take (64 - p.next)))
            (bs.drop (64 - p.next))).1 } := by
  simp only [feed]
  rw [if_neg h]

theorem feed_nil (p : Proxy) : feed p [] = p := by
  rw [feed_copy p [] (by simp)]
  simp [writeBytes_nil]

theorem feed_of_saturated (c t : List Nat) (r : Regs) (ys : List Nat)
    (hc : c.length = 64) (ht : t.length ≤ 64) :
    feed { buffer := writeBytes c 0 t, next := t.length,
           mixed := true, regs := r } ys =
      { buffer := writeBytes (mixChunks r c (t ++ ys)).2.1 0
          (mixChunks r c (t ++ ys)).2.2,
        next := (mixChunks r c (t ++ ys)).2.2.length,
        mixed := true,
        regs := (mixChunks r c (t ++ ys)).1 } := by
  by_cases hy : ys.length ≤ 64 - t.length
  · rw [feed_copy _ ys (by simpa using hy)]
    rw [mixChunks_le r c (t ++ ys) (by simp; omega)]
    have hbuf : writeBytes (writeBytes c 0 t) (0 + t.length) ys =
        writeBytes c 0 (t ++ ys) :=
      writeBytes_append c 0 t ys (by omega)
    rw [zero_add] at hbuf
    simp [hbuf]
  · rw [feed_sat _ ys (by simpa using hy)]
    have h1 : writeBytes (writeBytes c 0 t) t.length (ys.take (64 - t.length)) =
        writeBytes c 0 (t ++ ys.take (64 - t.length)) := by
      have h := writeBytes_append c 0 t (ys.take (64 - t.length)) (by omega)
      rwa [zero_add] at h
    have hfull : writeBytes c 0 (t ++ ys.take (64 - t.length)) =
        t ++ ys.take (64 - t.length) := by
      apply writeBytes_full _ _ hc
      simp only [List.length_append, List.length_take]
      omega
    have htk : (t ++ ys).take 64 = t ++ ys.take (64 - t.length) := by
      rw [List.take_append_eq_append_take, List.take_of_length_le ht]
    have hdr : (t ++ ys).drop 64 = ys.drop (64 - t.length) := by
      rw [List.drop_append_eq_append_drop,
        List.drop_eq_nil_of_le (by omega), List.nil_append]
    rw [mixChunks_gt r c (t ++ ys) (by simp; omega), htk, hdr]
    simp only [h1, hfull]
    simp

theorem feed_append (p : Proxy) (xs ys : List Nat)
    (hn : p.next ≤ 64) (hB : p.buffer.length = 64) :
    feed (feed p xs) ys = feed p (xs ++ ys) := by
  by_cases hx : xs.length ≤ 64 - p.next
  · rw [feed_copy p xs hx]
    by_cases hy : ys.length ≤ 64 - (p.next + xs.length)
    · rw [feed_copy _ ys (by simpa using hy),
        feed_copy p (xs ++ ys) (by simp; omega)]
      have hbuf : writeBytes (writeBytes p.buffer p.next xs)
          (p.next + xs.length) ys = writeBytes p.buffer p.next (xs ++ ys) :=
        writeBytes_append p.buffer p.next xs ys (by omega)
      simp [hbuf, Nat.add_assoc]
    · rw [feed_sat _ ys (by simpa using hy),
        feed_sat p (xs ++ ys) (by simp; omega)]
      dsimp only
      have hxtake : xs.take (64 - p.next) = xs :=
        List.take_of_length_le (by omega)
      have hidx2 : 64 - p.next - xs.length = 64 - (p.next + xs.length) := by
        omega
      have e1 : writeBytes (writeBytes p.buffer p.next xs) (p.next + xs.length)
          (ys.take (64 - (p.next + xs.length))) =
          writeBytes p.buffer p.next ((xs ++ ys).take (64 - p.next)) := by
        rw [writeBytes_append p.buffer p.next xs _ (by omega)]
        rw [List.take_append_eq_append_take, hxtake, hidx2]
      have hxdrop : xs.drop (64 - p.next) = [] :=
        List.drop_eq_nil_of_le (by omega)
      have e2 : (xs ++ ys).drop (64 - p.next) =
          ys.drop (64 - (p.next + xs.length)) := by
        rw [List.drop_append_eq_append_drop, hxdrop, List.nil_append, hidx2]
      rw [e1, e2]
  · rw [feed_sat p xs hx]
    have hbuf1 : (writeBytes p.buffer p.next (xs.take (64 - p.next))).length
        = 64 := by
      rw [writeBytes_length p.buffer p.next _
        (by simp only [List.length_take]; omega)]
      exact hB
    rw [feed_of_saturated _ _ _ ys (mixChunks_buf_length _ _ _ hbuf1)
      (mixChunks_tail_le _ _ _)]
    rw [feed_sat p (xs ++ ys) (by simp; omega)]
    have hidx : 64 - p.next - xs.length = 0 := by omega
    have e1 : (xs ++ ys).take (64 - p.next) = xs.take (64 - p.next) := by
      rw [List.take_append_eq_append_take, hidx, List.take_zero, List.append_nil]
    have e2 : (xs ++ ys).drop (64 - p.next) = xs.drop (64 - p.next) ++ ys := by
      rw [List.drop_append_eq_append_drop, hidx, List.drop_zero]
    rw [e1, e2, ← mixChunks_append]

theorem Inv_feed (p : Proxy) (bs : List Nat) (h : Inv p) : Inv (feed p bs) := by
  obtain ⟨hB, hn, hm⟩ := h
  by_cases hc : bs.length ≤ 64 - p.next
  · rw [feed_copy p bs hc]
    refine ⟨?_, by dsimp only; omega, ?_⟩
    · show (writeBytes p.buffer p.next bs).length = 64
      rw [writeBytes_length p.buffer p.next bs (by omega)]
      exact hB
    · intro hmix
      have h1 : p.mixed = true := hmix
      have h2 := hm h1
      show 1 ≤ p.next + bs.length
      omega
  · have hbuf1 : (writeBytes p.buffer p.next (bs.take (64 - p.next))).length
        = 64 := by
      rw [writeBytes_length p.buffer p.next _
        (by simp only [List.length_take]; omega)]
      exact hB
    rw [feed_sat p bs hc]
    refine ⟨?_, ?_, fun _ => ?_⟩
    · show (writeBytes _ 0 _).length = 64
      rw [writeBytes_length _ 0 _
        (by
          rw [mixChunks_buf_length _ _ _ hbuf1]
          have := mixChunks_tail_le
            (mixRegs (if p.mixed then p.regs else initializeRegs
              (writeBytes p.buffer p.next (bs.take (64 - p.next))))
              (writeBytes p.buffer p.next (bs.take (64 - p.next))))
            (writeBytes p.buffer p.next (bs.take (64 - p.next)))
            (bs.drop (64 - p.next))
          omega)]
      exact mixChunks_buf_length _ _ _ hbuf1
    · exact mixChunks_tail_le _ _ _
    · exact mixChunks_tail_pos _ _ _ (by simp only [List.length_drop]; omega)

theorem Inv_fresh : Inv fresh := by
  refine ⟨by simp [fresh], by simp [fresh], ?_⟩
  intro h
  simp [fresh] at h

theorem feedCalls_cons (p : Proxy) (c : List Nat) (cs : List (List Nat)) :
    feedCalls p (c :: cs) = feedCalls (feed p c) cs := rfl

theorem Inv_feedCalls (calls : List (List Nat)) :
    ∀ p : Proxy, Inv p → Inv (feedCalls p calls) := by
  induction calls with
  | nil => intro p hp; exact hp
  | cons c cs ih => intro p hp; exact ih (feed p c) (Inv_feed p c hp)

theorem feedCalls_flatten (calls : List (List Nat)) :
    ∀ p : Proxy, Inv p → feedCalls p calls = feed p calls.flatten := by
  induction calls with
  | nil => intro p _; simp [feedCalls, feed_nil]
  | cons c cs ih =>
    intro p hp
    rw [feedCalls_cons, ih (feed p c) (Inv_feed p c hp), List.flatten_cons,
      feed_append p c cs.flatten hp.2.1 hp.1]

theorem byteAt_append (s t : List Nat) (i : Nat) (h : i < s.length) :
    byteAt (s ++ t) i = byteAt s i := by
  unfold byteAt
  rw [List.getD_append _ _ _ _ h]

theorem fetch64_append (s t : List Nat) (i : Nat) (h : i + 8 ≤ s.length) :
    fetch64 (s ++ t) i = fetch64 s i := by
  unfold fetch64
  rw [byteAt_append s t i (by omega), byteAt_append s t (i + 1) (by omega),
    byteAt_append s t (i + 2) (by omega), byteAt_append s t (i + 3) (by omega),
    byteAt_append s t (i + 4) (by omega), byteAt_append s t (i + 5) (by omega),
    byteAt_append s t (i + 6) (by omega), byteAt_append s t (i + 7) (by omega)]

theorem fetch32_append (s t : List Nat) (i : Nat) (h : i + 4 ≤ s.length) :
    fetch32 (s ++ t) i = fetch32 s i := by
  unfold fetch32
  rw [byteAt_append s t i (by omega), byteAt_append s t (i + 1) (by omega),
    byteAt_append s t (i + 2) (by omega), byteAt_append s t (i + 3) (by omega)]

theorem hashLen0to16_append (s t : List Nat) (h : s.length ≤ 16) :
    hashLen0to16 (s ++ t) s.length = hashLen0to16 s s.length := by
  unfold hashLen0to16
  split_ifs with h8 h4 h0
  · rw [fetch64_append s t 0 (by omega),
      fetch64_append s t (s.length - 8) (by omega)]
  · rw [fetch32_append s t 0 (by omega),
      fetch32_append s t (s.length - 4) (by omega)]
  · rw [byteAt_append s t 0 (by omega),
      byteAt_append s t (s.length >>> 1) (by simp [Nat.shiftRight_eq_div_pow]; omega),
      byteAt_append s t (s.length - 1) (by omega)]
  · rfl

theorem hashLen17to32_append (s t : List Nat) (h17 : 17 ≤ s.length)
    (h32 : s.length ≤ 32) :
    hashLen17to32 (s ++ t) s.length = hashLen17to32 s s.length := by
  unfold hashLen17to32
  rw [fetch64_append s t 0 (by omega), fetch64_append s t 8 (by omega),
    fetch64_append s t (s.length - 8) (by omega),
    fetch64_append s t (s.length - 16) (by omega)]

theorem hashLen33to64_append (s t : List Nat) (h33 : 33 ≤ s.length)
    (h64 : s.length ≤ 64) :
    hashLen33to64 (s ++ t) s.length = hashLen33to64 s s.length := by
  unfold hashLen33to64
  rw [fetch64_append s t 0 (by omega), fetch64_append s t 8 (by omega),
    fetch64_append s t 16 (by omega), fetch64_append s t 24 (by omega),
    fetch64_append s t (s.length - 8) (by omega),
    fetch64_append s t (s.length - 16) (by omega),
    fetch64_append s t (s.length - 24) (by omega),
    fetch64_append s t (s.length - 32) (by omega)]

theorem feed_fresh_small (bs : List Nat) (h : bs.length ≤ 64) :
    feed fresh bs = { buffer := bs ++ List.replicate (64 - bs.length) 0,
                      next := bs.length, mixed := false,
                      regs := initialRegs } := by
  rw [feed_copy fresh bs (by simp [fresh]; omega)]
  show ({ buffer := writeBytes (List.replicate 64 0) 0 bs,
          next := 0 + bs.length, mixed := false, regs := initialRegs } : Proxy) =
    { buffer := bs ++ List.replicate (64 - bs.length) 0,
      next := bs.length, mixed := false, regs := initialRegs }
  rw [writeBytes_zero, List.drop_replicate, Nat.zero_add]

theorem feed_fresh_large (bs : List Nat) (h : 65 ≤ bs.length) :
    (feed fresh bs).mixed = true ∧
    1 ≤ (feed fresh bs).next ∧ (feed fresh bs).next ≤ 64 ∧
    rotateBuffer (feed fresh bs).buffer (feed fresh bs).next =
      bs.drop (bs.length - 64) := by
  have hc : ¬ bs.length ≤ 64 - fresh.next := by simp [fresh]; omega
  have hfb : writeBytes fresh.buffer fresh.next (bs.take (64 - fresh.next)) =
      bs.take 64 := by
    show writeBytes (List.replicate 64 0) 0 (bs.take 64) = bs.take 64
    exact writeBytes_full _ _ (by simp)
      (by rw [List.length_take]; omega)
  rw [feed_sat fresh bs hc]
  rw [hfb]
  have hmx : (if fresh.mixed then fresh.regs else initializeRegs (bs.take 64)) =
      initializeRegs (bs.take 64) := by simp [fresh]
  rw [hmx]
  have hdrop : 64 - fresh.next = 64 := by simp [fresh]
  rw [hdrop]
  have htklen : (bs.take 64).length = 64 := by rw [List.length_take]; omega
  have htail_le := mixChunks_tail_le (mixRegs (initializeRegs (bs.take 64))
    (bs.take 64)) (bs.take 64) (bs.drop 64)
  have htail_pos := mixChunks_tail_pos (mixRegs (initializeRegs (bs.take 64))
    (bs.take 64)) (bs.take 64) (bs.drop 64)
    (by simp only [List.length_drop]; omega)
  have hbuflen := mixChunks_buf_length (mixRegs (initializeRegs (bs.take 64))
    (bs.take 64)) (bs.take 64) (bs.drop 64) htklen
  refine ⟨rfl, htail_pos, htail_le, ?_⟩
  show rotateBuffer (writeBytes _ 0 _) _ = _
  rw [writeBytes_zero, rotateBuffer]
  rw [List.drop_left' (by rfl), List.take_left' (by rfl)]
  have hsuf := mixChunks_suffix (mixRegs (initializeRegs (bs.take 64))
    (bs.take 64)) (bs.take 64) (bs.drop 64) htklen
  rw [hsuf, htklen, List.length_drop, List.take_append_drop]
  have hidx : 64 + (bs.length - 64) - 64 = bs.length - 64 := by omega
  rw [hidx]

end farmhash

theorem identity_range_string_spec (s : List Nat) : ∀ code : List Nat,
    identity.hash_combine_range_string code s =
      code ++ s.map (fun c => c % 256) := by
  induction s with
  | nil => intro code; simp [identity.hash_combine_range_string]
  | cons c rest ih =>
    intro code
    show identity.hash_combine_range_string
      (identity.hash_value_char code c) rest = _
    rw [ih (identity.hash_value_char code c)]
    show (code ++ [c % 256]) ++ rest.map (fun c => c % 256) = _
    simp

/-- C3: The fnv1a digest of a byte sequence is the left fold that starts the
register at 14695981039346656037 and replaces it by
`(register XOR byte) * 1099511628211` (in `size_t`, i.e. mod `2^64`) for each
byte in order; extraction returns the register unchanged. -/
theorem C3_fnv1a_digest_is_foldl :
    (∀ input : List Nat,
      fnv1a.digest input =
        input.foldl (fun r b => ((r ^^^ b) * 1099511628211) % 2 ^ 64)
          14695981039346656037) ∧
    (∀ hash_code : Nat, fnv1a.finalize hash_code = hash_code) := by
  constructor
  · intro input
    rw [fnv1a.digest, fnv1a.finalize, fnv1a.hash_combine_range_eq_foldl]
    rfl
  · intro hash_code
    rfl

/-- C2: Decomposing a string mixes every character in order and then the
element count as `size_t`; in particular the diagnostic recorder's output for
the 3-character string "abc" is exactly the bytes `[0x61, 0x62, 0x63]`
followed by the 8 bytes of `size_t(3)`. -/
theorem C2_string_decomposition_recorder :
    (∀ s : List Nat,
      identity.finalize (identity.hash_value_string [] s) =
        s.map (fun c => c % 256) ++ leBytes 8 s.length) ∧
    identity.finalize (identity.hash_value_string [] [0x61, 0x62, 0x63]) =
      [0x61, 0x62, 0x63] ++ leBytes 8 3 ∧
    [0x61, 0x62, 0x63] ++ leBytes 8 3 =
      [0x61, 0x62, 0x63, 3, 0, 0, 0, 0, 0, 0, 0] := by
  refine ⟨?_, by decide, by decide⟩
  intro s
  show identity.hash_value_size (identity.hash_combine_range_string [] s)
    s.length = _
  rw [identity_range_string_spec s []]
  simp [identity.hash_value_size, identity.hash_combine_range_bytes]

/-- C5: Under `type_invariant_fnv1a`, hashing an interned-string wrapper
yields the same digest as hashing the plain string it refers to — the
pointer representation plays no role — and a vector of interned strings
hashes equal to the vector of the equal plain strings. -/
theorem C5_type_invariant_interned_eq_plain :
    (∀ (hash_code : Nat) (i : InternedString),
      type_invariant_fnv1a.hash_interned hash_code i =
        type_invariant_fnv1a.hash_string hash_code i.value) ∧
    (∀ (hash_code p1 p2 : Nat) (val : List Nat),
      type_invariant_fnv1a.hash_interned hash_code ⟨p1, val⟩ =
        type_invariant_fnv1a.hash_interned hash_code ⟨p2, val⟩) ∧
    (∀ (hash_code : Nat) (v : List InternedString),
      type_invariant_fnv1a.hash_vector_interned hash_code v =
        type_invariant_fnv1a.hash_vector_string hash_code
          (v.map InternedString.value)) := by
  refine ⟨fun _ _ => rfl, fun _ _ _ _ => rfl, ?_⟩
  intro hash_code v
  unfold type_invariant_fnv1a.hash_vector_interned
    type_invariant_fnv1a.hash_vector_string
  rw [List.foldl_map, List.length_map]
  rfl

/-- C8: Floating-point decomposition normalizes negative zero to positive
zero before taking the value's bytes, so `-0.0` and `+0.0` mix identical
bytes under every algorithm, for every floating-point width. -/
theorem C8_negative_zero_normalized :
    ∀ (σ : Type) (mixRange : σ → List Nat → σ) (hash_code : σ) (w : Nat),
      hash_value_float mixRange hash_code w (negZeroBits w) =
        hash_value_float mixRange hash_code w (posZeroBits w) := by
  intro σ mixRange hash_code w
  unfold hash_value_float floatNormalize
  rw [if_pos (Or.inr rfl), if_pos (Or.inl rfl)]

/-- C1: For a contiguous range of a uniquely-represented type, the byte-level
shortcut (mixing the concatenated element representations as one raw byte
range) equals the generic iterative decomposition path, for every algorithm
whose `unsigned char*` range primitive ignores an empty range and splits over
concatenation — and concretely for the fnv1a, identity and farmhash
primitives of this repository (the farmhash one on every reachable state). -/
theorem C1_byte_shortcut_eq_iterative :
    (∀ (σ : Type) (mixRange : σ → List Nat → σ),
      (∀ hash_code, mixRange hash_code [] = hash_code) →
      (∀ hash_code xs ys,
        mixRange hash_code (xs ++ ys) = mixRange (mixRange hash_code xs) ys) →
      ∀ (α : Type) (enc : α → List Nat) (hash_code : σ) (vals : List α),
        hashRangeBytes mixRange enc hash_code vals =
          hashRangeIter mixRange enc hash_code vals) ∧
    (∀ (α : Type) (enc : α → List Nat) (hash_code : Nat) (vals : List α),
      hashRangeBytes fnv1a.hash_combine_range enc hash_code vals =
        hashRangeIter fnv1a.hash_combine_range enc hash_code vals) ∧
    (∀ (α : Type) (enc : α → List Nat) (hash_code : List Nat) (vals : List α),
      hashRangeBytes identity.hash_combine_range_bytes enc hash_code vals =
        hashRangeIter identity.hash_combine_range_bytes enc hash_code vals) ∧
    (∀ (α : Type) (enc : α → List Nat) (p : farmhash.Proxy), farmhash.Inv p →
      ∀ vals : List α,
        hashRangeBytes farmhash.feed enc p vals =
          hashRangeIter farmhash.feed enc p vals) := by
  have habs : ∀ (σ : Type) (mixRange : σ → List Nat → σ),
      (∀ hash_code, mixRange hash_code [] = hash_code) →
      (∀ hash_code xs ys,
        mixRange hash_code (xs ++ ys) = mixRange (mixRange hash_code xs) ys) →
      ∀ (α : Type) (enc : α → List Nat) (hash_code : σ) (vals : List α),
        hashRangeBytes mixRange enc hash_code vals =
          hashRangeIter mixRange enc hash_code vals := by
    intro σ mixRange hnil happ α enc hash_code vals
    induction vals generalizing hash_code with
    | nil => simp [hashRangeBytes, hashRangeIter, hnil]
    | cons v vs ih =>
      show mixRange hash_code (enc v ++ (vs.map enc).flatten) = _
      rw [happ]
      exact ih (mixRange hash_code (enc v))
  refine ⟨habs, ?_, ?_, ?_⟩
  · intro α enc hash_code vals
    exact habs Nat fnv1a.hash_combine_range (fun _ => rfl)
      fnv1a.hash_combine_range_append α enc hash_code vals
  · intro α enc hash_code vals
    exact habs (List Nat) identity.hash_combine_range_bytes
      (fun code => by simp [identity.hash_combine_range_bytes])
      (fun code xs ys => by simp [identity.hash_combine_range_bytes])
      α enc hash_code vals
  · intro α enc p hp vals
    show farmhash.feed p (vals.map enc).flatten = _
    rw [← farmhash.feedCalls_flatten (vals.map enc) p hp]
    show (vals.map enc).foldl farmhash.feed p = _
    rw [List.foldl_map]
    rfl

/-- Witness for C1: the equality at concrete inputs, for the fnv1a primitive
(discharging the two algebraic hypotheses) and for the farmhash primitive on
a freshly constructed handle (discharging the reachability hypothesis). -/
theorem C1_byte_shortcut_eq_iterative_witness :
    hashRangeBytes fnv1a.hash_combine_range (leBytes 4) fnv1a.seed [1, 2, 3] =
      hashRangeIter fnv1a.hash_combine_range (leBytes 4) fnv1a.seed [1, 2, 3] ∧
    hashRangeBytes farmhash.feed (leBytes 4) farmhash.fresh [1, 2, 3] =
      hashRangeIter farmhash.feed (leBytes 4) farmhash.fresh [1, 2, 3] :=
  ⟨C1_byte_shortcut_eq_iterative.1 Nat fnv1a.hash_combine_range (fun _ => rfl)
      fnv1a.hash_combine_range_append Nat (leBytes 4) fnv1a.seed [1, 2, 3],
    C1_byte_shortcut_eq_iterative.2.2.2 Nat (leBytes 4) farmhash.fresh
      farmhash.Inv_fresh [1, 2, 3]⟩

/-- C6: For every algorithm and every list of uniquely-represented values,
the variadic `hash_combine_impl` recursion, the one-call-per-value loop, and
the iterative `hash_combine_range` path produce pairwise equal handles. -/
theorem C6_loop_variadic_range_agree :
    ∀ (σ α : Type) (mixRange : σ → List Nat → σ) (enc : α → List Nat)
      (hash_code : σ) (vals : List α),
      hash_combine_impl mixRange enc hash_code vals =
        vals.foldl (hash_combine_one mixRange enc) hash_code ∧
      vals.foldl (hash_combine_one mixRange enc) hash_code =
        hashRangeIter mixRange enc hash_code vals ∧
      hash_combine_impl mixRange enc hash_code vals =
        hashRangeIter mixRange enc hash_code vals := by
  intro σ α mixRange enc hash_code vals
  have himpl : ∀ (code : σ), hash_combine_impl mixRange enc code vals =
      vals.foldl (hash_combine_one mixRange enc) code := by
    induction vals with
    | nil => intro code; rfl
    | cons v vs ih => intro code; exact ih (mixRange code (enc v))
  exact ⟨himpl hash_code, rfl, himpl hash_code⟩

/-- C7: A variadic `hash_combine` with no values returns the handle
unchanged, and `hash_combine_range` over an empty range leaves the handle
unchanged: in the generic iterative path for every algorithm, and in the
byte-range primitives of fnv1a, identity and farmhash. -/
theorem C7_empty_combine_noop :
    (∀ (σ α : Type) (mixRange : σ → List Nat → σ) (enc : α → List Nat)
      (hash_code : σ),
      hash_combine_impl mixRange enc hash_code [] = hash_code ∧
      hashRangeIter mixRange enc hash_code ([] : List α) = hash_code) ∧
    (∀ hash_code : Nat, fnv1a.hash_combine_range hash_code [] = hash_code) ∧
    (∀ hash_code : List Nat,
      identity.hash_combine_range_bytes hash_code [] = hash_code) ∧
    (∀ p : farmhash.Proxy, farmhash.feed p [] = p) := by
  refine ⟨fun σ α mixRange enc hash_code => ⟨rfl, rfl⟩, fun _ => rfl, ?_, ?_⟩
  · intro hash_code
    simp [identity.hash_combine_range_bytes]
  · exact farmhash.feed_nil

/-- C9: Hashing an empty sequence mixes no element bytes and then mixes the
count zero as `size_t`, agreeing between `hash_sized_container` and the
`forward_list` path; and it is not a no-op: concretely, under fnv1a and under
the identity recorder, the result differs from an untouched handle. -/
theorem C9_empty_sequence_mixes_count_zero :
    (∀ (σ α : Type) (combineRange : σ → List α → σ)
      (combineSize : σ → Nat → σ) (hash_code : σ),
      combineRange hash_code [] = hash_code →
      hash_sized_container combineRange combineSize hash_code [] =
        combineSize hash_code 0) ∧
    (∀ (σ α : Type) (combineElem : σ → α → σ) (combineSize : σ → Nat → σ)
      (hash_code : σ),
      hash_value_forward_list combineElem combineSize hash_code ([] : List α) =
        combineSize hash_code 0) ∧
    fnv1a.finalize (fnv1a.hash_combine_range fnv1a.seed (leBytes 8 0)) ≠
      fnv1a.finalize fnv1a.seed ∧
    identity.finalize (identity.hash_value_size [] 0) ≠
      identity.finalize [] := by
  refine ⟨?_, fun σ α combineElem combineSize hash_code => rfl,
    by decide, by decide⟩
  intro σ α combineRange combineSize hash_code hnil
  unfold hash_sized_container
  rw [hnil]
  rfl

/-- Witness for C9: the general empty-container law applied to fnv1a mixing
bytes, with the empty-range hypothesis discharged definitionally. -/
theorem C9_empty_sequence_witness :
    hash_sized_container fnv1a.hash_combine_range
        (fun hash_code n => fnv1a.hash_combine_range hash_code (leBytes 8 n))
        fnv1a.seed [] =
      fnv1a.hash_combine_range fnv1a.seed (leBytes 8 0) :=
  C9_empty_sequence_mixes_count_zero.1 Nat Nat fnv1a.hash_combine_range
    (fun hash_code n => fnv1a.hash_combine_range hash_code (leBytes 8 n))
    fnv1a.seed rfl

/-- C4: For the farmhash proxy, after any sequence of range calls totalling
at most 64 bytes no block was mixed and finalization dispatches on the length
bucket (`0-16`, `17-32`, `33-64`) applied to exactly the input bytes; after
65 or more bytes, finalization rotates the circular buffer's tail into
logical order — the last 64 input bytes — and runs `final_mix` on it. -/
theorem C4_farmhash_finalization_buckets :
    ∀ calls : List (List Nat),
      (calls.flatten.length ≤ 64 →
        (farmhash.feedCalls farmhash.fresh calls).mixed = false ∧
        (farmhash.feedCalls farmhash.fresh calls).next =
          calls.flatten.length) ∧
      (calls.flatten.length ≤ 16 →
        farmhash.finalizeProxy (farmhash.feedCalls farmhash.fresh calls) =
          farmhash.hashLen0to16 calls.flatten calls.flatten.length) ∧
      (17 ≤ calls.flatten.length → calls.flatten.length ≤ 32 →
        farmhash.finalizeProxy (farmhash.feedCalls farmhash.fresh calls) =
          farmhash.hashLen17to32 calls.flatten calls.flatten.length) ∧
      (33 ≤ calls.flatten.length → calls.flatten.length ≤ 64 →
        farmhash.finalizeProxy (farmhash.feedCalls farmhash.fresh calls) =
          farmhash.hashLen33to64 calls.flatten calls.flatten.length) ∧
      (65 ≤ calls.flatten.length →
        (farmhash.feedCalls farmhash.fresh calls).mixed = true ∧
        farmhash.finalizeProxy (farmhash.feedCalls farmhash.fresh calls) =
          farmhash.final_mix (farmhash.feedCalls farmhash.fresh calls).regs
            (farmhash.feedCalls farmhash.fresh calls).buffer
            (farmhash.feedCalls farmhash.fresh calls).next ∧
        farmhash.rotateBuffer (farmhash.feedCalls farmhash.fresh calls).buffer
            (farmhash.feedCalls farmhash.fresh calls).next =
          calls.flatten.drop (calls.flatten.length - 64)) := by
  intro calls
  have hP : farmhash.feedCalls farmhash.fresh calls =
      farmhash.feed farmhash.fresh calls.flatten :=
    farmhash.feedCalls_flatten calls farmhash.fresh farmhash.Inv_fresh
  rw [hP]
  refine ⟨?_, ?_, ?_, ?_, ?_⟩
  · intro h64
    rw [farmhash.feed_fresh_small calls.flatten h64]
    exact ⟨rfl, rfl⟩
  · intro h16
    rw [farmhash.feed_fresh_small calls.flatten (by omega)]
    simp only [farmhash.finalizeProxy]
    rw [if_pos trivial, if_pos (show calls.flatten.length ≤ 32 by omega),
      if_pos (show calls.flatten.length ≤ 16 from h16)]
    exact farmhash.hashLen0to16_append calls.flatten _ h16
  · intro h17 h32
    rw [farmhash.feed_fresh_small calls.flatten (by omega)]
    simp only [farmhash.finalizeProxy]
    rw [if_pos trivial, if_pos (show calls.flatten.length ≤ 32 from h32),
      if_neg (show ¬ calls.flatten.length ≤ 16 by omega)]
    exact farmhash.hashLen17to32_append calls.flatten _ h17 h32
  · intro h33 h64
    rw [farmhash.feed_fresh_small calls.flatten h64]
    simp only [farmhash.finalizeProxy]
    rw [if_pos trivial, if_neg (show ¬ calls.flatten.length ≤ 32 by omega)]
    exact farmhash.hashLen33to64_append calls.flatten _ h33 h64
  · intro h65
    obtain ⟨hm, hpos, hle, hrot⟩ :=
      farmhash.feed_fresh_large calls.flatten h65
    refine ⟨hm, ?_, hrot⟩
    simp only [farmhash.finalizeProxy]
    rw [hm, if_neg (by simp)]

/-- Witness for C4: each finalization bucket exercised at a concrete call
sequence of the matching total length. -/
theorem C4_farmhash_finalization_buckets_witness :
    farmhash.finalizeProxy (farmhash.feedCalls farmhash.fresh [[1, 2, 3]]) =
      farmhash.hashLen0to16 [1, 2, 3] 3 ∧
    farmhash.finalizeProxy
        (farmhash.feedCalls farmhash.fresh [List.replicate 20 5]) =
      farmhash.hashLen17to32 (List.replicate 20 5) 20 ∧
    farmhash.finalizeProxy
        (farmhash.feedCalls farmhash.fresh [List.replicate 40 6]) =
      farmhash.hashLen33to64 (List.replicate 40 6) 40 ∧
    (farmhash.feedCalls farmhash.fresh [List.replicate 70 7]).mixed = true :=
  ⟨(C4_farmhash_finalization_buckets [[1, 2, 3]]).2.1 (by decide),
    (C4_farmhash_finalization_buckets [List.replicate 20 5]).2.2.1
      (by decide) (by decide),
    (C4_farmhash_finalization_buckets [List.replicate 40 6]).2.2.2.1
      (by decide) (by decide),
    ((C4_farmhash_finalization_buckets [List.replicate 70 7]).2.2.2.2
      (by decide)).1⟩

/-- C10: After any sequence of `hash_combine_range` calls the farmhash proxy
buffers at most 64 unmixed bytes, the 64-byte buffer keeps its size (so
every `memcpy` into it is in bounds), and once `mixed_` is set the buffered
count stays strictly positive — hence `final_mix` always receives
`0 < len <= 64`. -/
theorem C10_farmhash_buffer_invariant :
    ∀ calls : List (List Nat),
      (farmhash.feedCalls farmhash.fresh calls).buffer.length = 64 ∧
      (farmhash.feedCalls farmhash.fresh calls).next ≤ 64 ∧
      ((farmhash.feedCalls farmhash.fresh calls).mixed = true →
        1 ≤ (farmhash.feedCalls farmhash.fresh calls).next) :=
  fun calls => farmhash.Inv_feedCalls calls farmhash.fresh farmhash.Inv_fresh

/-- Witness for C10: the invariant at a concrete 70-byte call, with the
`mixed_` hypothesis discharged through the 65-byte threshold lemma. -/
theorem C10_farmhash_buffer_invariant_witness :
    (farmhash.feedCalls farmhash.fresh [List.replicate 70 9]).buffer.length =
      64 ∧
    1 ≤ (farmhash.feedCalls farmhash.fresh [List.replicate 70 9]).next :=
  ⟨(C10_farmhash_buffer_invariant [List.replicate 70 9]).1,
    (C10_farmhash_buffer_invariant [List.replicate 70 9]).2.2
      (farmhash.feed_fresh_large (List.replicate 70 9) (by simp)).1⟩

end HashingDemo
